import Mathlib

/-!
Shallow embedding of the TF-IDF news search engine in `src/app.py`.

The application loads a pre-tokenized corpus (column `cut_content` of the CSV,
one whitespace-separated token list per document), fits
`sklearn.TfidfVectorizer(max_features=10000)` on it, and serves queries by
tokenizing with jieba, transforming with the fitted vectorizer, computing
`cosine_similarity(query_vec, tfidf_matrix)`, taking
`sim_scores.argsort()[::-1][:10]`, and skipping every hit with
`score < 0.05`.

Documents and queries are modelled as token lists (`List String`): jieba and
the sklearn analyzer sit upstream of the indexing/ranking core and are external
collaborators in the spec.  Real-valued weights are modelled in `ℝ`.
The default `numpy.argsort` is documented as non-stable: it guarantees the
sort keys are ordered but fixes no order between equal keys.  The model picks
one concrete resolution of ties (the stable one, which numpy also produces on
arrays small enough for its insertion-sort path); the `[::-1]` reversal is
folded into sorting by the reversed relation.  Theorems below therefore rely
on the tie order only in two places: conclusions that hold under every tie
resolution, and concrete counterexamples on two-element arrays where the
insertion-sort path does pin the order.
-/

namespace NjuptSearch

/-- A document is its list of tokens (the `cut_content` column, already
tokenized upstream). -/
abbrev Doc := List String

/-- The corpus is the ordered list of tokenized documents; the id of a document is
its 0-based position. -/
abbrev Corpus := List Doc

/-- Raw term frequency: number of occurrences of term `t` in document `d`
(the entry of the sklearn count matrix). -/
def tf (d : Doc) (t : String) : Nat := d.count t

/-- Document frequency as sklearn computes it from the count matrix: the
number of rows whose count for `t` is non-zero. -/
def dfMat (c : Corpus) (t : String) : Nat :=
  c.countP (fun d => decide (tf d t ≠ 0))

/-- Document frequency as the spec states it: the number of documents that
contain the term. -/
def df (c : Corpus) (t : String) : Nat :=
  c.countP (fun d => decide (t ∈ d))

/-- Total occurrence count of `t` across the corpus: the sklearn
`X.sum(axis=0)` used by `_limit_features` when `max_features` is set. -/
def totalCount (c : Corpus) (t : String) : Nat :=
  (c.map (fun d => tf d t)).sum

/-- The `max_features=10000` argument of the vectorizer in `src/app.py`. -/
def maxFeatures : Nat := 10000

/-- The result cap: `[:10]` in `src/app.py`. -/
def topK : Nat := 10

/-- The distinct terms of the corpus in ascending lexicographic order:
the sklearn `_sort_features` sorts the fitted vocabulary alphabetically before
any feature limiting. -/
def sortedTerms (c : Corpus) : List String :=
  c.flatten.dedup.insertionSort (· ≤ ·)

/-- Order in which the sklearn `_limit_features` ranks column indices of the
alphabetically sorted matrix: `(-tfs).argsort()` — descending total count.
Equal counts are resolved here to ascending column order; the real argsort
leaves that order unspecified, so theorems draw only conclusions that hold
for every resolution of equal counts. -/
def freqIdxRel (c : Corpus) (ts : List String) (i j : Nat) : Prop :=
  totalCount c (ts.getD j "") < totalCount c (ts.getD i "") ∨
    (totalCount c (ts.getD i "") = totalCount c (ts.getD j "") ∧ i ≤ j)

instance (c : Corpus) (ts : List String) : DecidableRel (freqIdxRel c ts) :=
  fun _ _ => by unfold freqIdxRel; infer_instance

instance (c : Corpus) (ts : List String) : IsTotal Nat (freqIdxRel c ts) where
  total i j := by
    unfold freqIdxRel
    rcases lt_trichotomy (totalCount c (ts.getD i "")) (totalCount c (ts.getD j "")) with h | h | h
    · exact Or.inr (Or.inl h)
    · rcases Nat.le_total i j with hij | hij
      · exact Or.inl (Or.inr ⟨h, hij⟩)
      · exact Or.inr (Or.inr ⟨h.symm, hij⟩)
    · exact Or.inl (Or.inl h)

instance (c : Corpus) (ts : List String) : IsTrans Nat (freqIdxRel c ts) where
  trans i j k hij hjk := by
    unfold freqIdxRel at *
    rcases hij with h1 | ⟨e1, l1⟩
    · rcases hjk with h2 | ⟨e2, _⟩
      · exact Or.inl (h2.trans h1)
      · exact Or.inl (e2 ▸ h1)
    · rcases hjk with h2 | ⟨e2, l2⟩
      · exact Or.inl (e1 ▸ h2)
      · exact Or.inr ⟨e1.trans e2, l1.trans l2⟩

instance (c : Corpus) (ts : List String) : IsAntisymm Nat (freqIdxRel c ts) where
  antisymm i j hij hji := by
    unfold freqIdxRel at *
    rcases hij with h1 | ⟨_, l1⟩
    · rcases hji with h2 | ⟨e2, _⟩
      · exact absurd (h1.trans h2) (lt_irrefl _)
      · exact absurd h1 (e2 ▸ lt_irrefl _)
    · rcases hji with h2 | ⟨e2, l2⟩
      · exact absurd h2 (‹_ = _› ▸ lt_irrefl _)
      · exact Nat.le_antisymm l1 l2

/-- Column indices kept by the sklearn `_limit_features`: the first
`max_features` positions of the frequency-ranked argsort.  When frequency
ties straddle the cut, which tied columns survive is one admissible choice;
the code leaves it unspecified. -/
def keptIdx (c : Corpus) : List Nat :=
  (List.insertionSort (freqIdxRel c (sortedTerms c))
    (List.range (sortedTerms c).length)).take maxFeatures

/-- The fitted vocabulary, in column-index order.  sklearn sorts the
vocabulary alphabetically; when more than `max_features` terms exist it keeps
the `max_features` most frequent ones (mask over the alphabetical order), so
the surviving terms stay in alphabetical order. -/
def vocab (c : Corpus) : List String :=
  if (sortedTerms c).length ≤ maxFeatures then sortedTerms c
  else
    ((List.range (sortedTerms c).length).filter
      (fun i => decide (i ∈ keptIdx c))).map (fun i => (sortedTerms c).getD i "")

/-- Ranking of terms by descending corpus frequency, frequency ties broken by
ascending lexicographic order — the selection order named by the
Vocabulary Builder. -/
def freqRel (c : Corpus) (a b : String) : Prop :=
  totalCount c b < totalCount c a ∨ (totalCount c a = totalCount c b ∧ a ≤ b)

instance (c : Corpus) : DecidableRel (freqRel c) :=
  fun _ _ => by unfold freqRel; infer_instance

instance (c : Corpus) : IsTotal String (freqRel c) where
  total a b := by
    unfold freqRel
    rcases lt_trichotomy (totalCount c a) (totalCount c b) with h | h | h
    · exact Or.inr (Or.inl h)
    · rcases le_total a b with hab | hab
      · exact Or.inl (Or.inr ⟨h, hab⟩)
      · exact Or.inr (Or.inr ⟨h.symm, hab⟩)
    · exact Or.inl (Or.inl h)

instance (c : Corpus) : IsTrans String (freqRel c) where
  trans a b d hab hbd := by
    unfold freqRel at *
    rcases hab with h1 | ⟨e1, l1⟩
    · rcases hbd with h2 | ⟨e2, _⟩
      · exact Or.inl (h2.trans h1)
      · exact Or.inl (e2 ▸ h1)
    · rcases hbd with h2 | ⟨e2, l2⟩
      · exact Or.inl (e1 ▸ h2)
      · exact Or.inr ⟨e1.trans e2, l1.trans l2⟩

instance (c : Corpus) : IsAntisymm String (freqRel c) where
  antisymm a b hab hba := by
    unfold freqRel at *
    rcases hab with h1 | ⟨_, l1⟩
    · rcases hba with h2 | ⟨e2, _⟩
      · exact absurd (h1.trans h2) (lt_irrefl _)
      · exact absurd h1 (e2 ▸ lt_irrefl _)
    · rcases hba with h2 | ⟨e2, l2⟩
      · exact absurd h2 (‹_ = _› ▸ lt_irrefl _)
      · exact le_antisymm l1 l2

/-- Vocabulary as the Vocabulary Builder section of the spec describes it: terms in
selection order (descending frequency, lexicographic tie-break), truncated to
`max_features`, indices assigned in that selection order. -/
def specVocab (c : Corpus) : List String :=
  (List.insertionSort (freqRel c) (sortedTerms c)).take maxFeatures

theorem string_b_not_le_a : ¬ (("b" : String) ≤ "a") := by
  rw [String.le_iff_toList_le]; decide

theorem sortedTerms_bba : sortedTerms [["b", "b", "a"]] = ["a", "b"] := by
  simp [sortedTerms, List.insertionSort, List.orderedInsert, string_b_not_le_a]
  decide

theorem vocab_bba_eval : vocab [["b", "b", "a"]] = ["a", "b"] := by
  simp [vocab, sortedTerms_bba, maxFeatures]

theorem specVocab_bba_eval : specVocab [["b", "b", "a"]] = ["b", "a"] := by
  have h : ¬ freqRel [["b", "b", "a"]] "a" "b" := by
    unfold freqRel totalCount tf
    decide
  simp [specVocab, sortedTerms_bba, List.insertionSort, List.orderedInsert, h,
    maxFeatures]

/-- Load failure raised by the fitted vectorizer.  The sklearn
`fit_transform` raises `ValueError("empty vocabulary ...")` when the corpus
is empty or no term survives; the spec names this failure
`EmptyCorpusError`. -/
inductive LoadError
  | emptyCorpus
deriving DecidableEq

/-- The indexed state the app holds after a successful load: the corpus from
which vocabulary, IDF table and document-term matrix are all derived. -/
structure EngineState where
  corpus : Corpus
deriving DecidableEq

/-- Modelled from the spec: the load interface of the engine.  `src/app.py`
realizes it through `load_data_and_model`, whose `fit_transform` call fails
on a corpus with an empty fitted vocabulary. -/
def loadEngine (c : Corpus) : Except LoadError EngineState :=
  if (vocab c).isEmpty then Except.error LoadError.emptyCorpus else Except.ok ⟨c⟩

/-- One load attempt against the process-wide cached state
(`@st.cache_data`): a successful fit replaces the cached triple, a failing
load leaves the previously cached state untouched. -/
def loadAttempt (prev : Option EngineState) (c : Corpus) : Option EngineState :=
  match loadEngine c with
  | Except.ok e => some e
  | Except.error _ => prev

noncomputable section

/-- Smoothed inverse document frequency, as sklearn computes it from the
count matrix with its default `smooth_idf=True`:
`log((1 + n_samples) / (1 + document_count)) + 1`, where `document_count` is
the number of matrix rows with a non-zero count for the term. -/
def idf (c : Corpus) (t : String) : ℝ :=
  Real.log ((1 + (c.length : ℝ)) / (1 + (dfMat c t : ℝ))) + 1

/-- Unnormalized TF-IDF vector of a token list over the fitted vocabulary:
count times idf, one entry per vocabulary column. -/
def rawRow (c : Corpus) (d : Doc) : List ℝ :=
  (vocab c).map (fun t => (tf d t : ℝ) * idf c t)

/-- Euclidean norm of a vector. -/
def l2norm (v : List ℝ) : ℝ :=
  Real.sqrt ((v.map (fun x => x ^ 2)).sum)

/-- the sklearn `normalize(..., norm="l2")`: divide by the row norm, where a
zero norm is replaced by `1` before dividing. -/
def normalizeRow (v : List ℝ) : List ℝ :=
  v.map (fun x => x / (if l2norm v = 0 then 1 else l2norm v))

/-- A row of the fitted `tfidf_matrix`: the L2-normalized TF-IDF vector of
one document. -/
def docRow (c : Corpus) (d : Doc) : List ℝ :=
  normalizeRow (rawRow c d)

/-- The document-term matrix `tfidf_matrix` of `src/app.py`: one normalized
row per corpus document, in corpus order. -/
def tfidfMatrix (c : Corpus) : List (List ℝ) :=
  c.map (docRow c)

/-- Query vectorization, `vectorizer.transform([query_cut])`: the query is vectorized over the
frozen vocabulary with the stored idf weights and L2-normalized; nothing is
re-fitted. -/
def queryVec (c : Corpus) (q : List String) : List ℝ :=
  normalizeRow (rawRow c q)

/-- Dot product of two vectors (trailing entries of the longer one are
dropped; all vectors compared here share the vocabulary length). -/
def dotL (u v : List ℝ) : ℝ :=
  (List.zipWith (· * ·) u v).sum

/-- Cosine similarity, `sklearn.metrics.pairwise.cosine_similarity`: both arguments are
L2-normalized (a zero vector staying zero) and then dotted. -/
def cosineSim (u v : List ℝ) : ℝ :=
  dotL (normalizeRow u) (normalizeRow v)

/-- Similarity scores, `sim_scores`: cosine similarity of the query vector against every row of
the document-term matrix, flattened to one score per document. -/
def simScores (c : Corpus) (q : List String) : List ℝ :=
  (tfidfMatrix c).map (fun row => cosineSim (queryVec c q) row)

/-- The order `sim_scores.argsort()[::-1]` lists positions in: descending
score.  On equal scores the model resolves the order to descending position
(a stable argsort, reversed); the default non-stable argsort guarantees no
tie order, so theorems rely on this resolution only for conclusions stable
under every resolution, or on two-element arrays where the insertion-sort
path makes it the real behaviour. -/
def scoreRel (s : List ℝ) (i j : Nat) : Prop :=
  s.getD j 0 < s.getD i 0 ∨ (s.getD i 0 = s.getD j 0 ∧ j ≤ i)

instance (s : List ℝ) : DecidableRel (scoreRel s) :=
  fun _ _ => by unfold scoreRel; infer_instance

instance (s : List ℝ) : IsTotal Nat (scoreRel s) where
  total i j := by
    unfold scoreRel
    rcases lt_trichotomy (s.getD i 0) (s.getD j 0) with h | h | h
    · exact Or.inr (Or.inl h)
    · rcases Nat.le_total j i with hij | hij
      · exact Or.inl (Or.inr ⟨h, hij⟩)
      · exact Or.inr (Or.inr ⟨h.symm, hij⟩)
    · exact Or.inl (Or.inl h)

instance (s : List ℝ) : IsTrans Nat (scoreRel s) where
  trans i j k hij hjk := by
    unfold scoreRel at *
    rcases hij with h1 | ⟨e1, l1⟩
    · rcases hjk with h2 | ⟨e2, _⟩
      · exact Or.inl (h2.trans h1)
      · exact Or.inl (e2 ▸ h1)
    · rcases hjk with h2 | ⟨e2, l2⟩
      · exact Or.inl (e1 ▸ h2)
      · exact Or.inr ⟨e1.trans e2, l2.trans l1⟩

instance (s : List ℝ) : IsAntisymm Nat (scoreRel s) where
  antisymm i j hij hji := by
    unfold scoreRel at *
    rcases hij with h1 | ⟨_, l1⟩
    · rcases hji with h2 | ⟨e2, _⟩
      · exact absurd (h1.trans h2) (lt_irrefl _)
      · exact absurd h1 (e2 ▸ lt_irrefl _)
    · rcases hji with h2 | ⟨e2, l2⟩
      · exact absurd h2 (‹_ = _› ▸ lt_irrefl _)
      · exact Nat.le_antisymm l2 l1

/-- Reverse argsort order, `sim_scores.argsort()[::-1]`: every document
position, ordered by descending score; ties follow the one concrete
resolution `scoreRel` fixes. -/
def argsortDesc (s : List ℝ) : List Nat :=
  List.insertionSort (scoreRel s) (List.range s.length)

/-- The relevance threshold `0.05` of the score filter in `src/app.py`. -/
def relevanceFloor : ℝ := 0.05

/-- Truncated ranking, `sorted_indices = sim_scores.argsort()[::-1][:10]`. -/
def sortedIndices (c : Corpus) (q : List String) : List Nat :=
  (argsortDesc (simScores c q)).take topK

/-- The result list the app renders: each index of `sorted_indices` paired
with its score, skipping entries with `score < 0.05`
(`if score < 0.05: continue`). -/
def search (c : Corpus) (q : List String) : List (Nat × ℝ) :=
  ((sortedIndices c q).map (fun i => (i, (simScores c q).getD i 0))).filter
    (fun p => !decide (p.2 < relevanceFloor))

/-- The Ranker as the spec, §4.4, orders the steps: discard documents
scoring strictly below the floor, sort the survivors descending, truncate to
`top_k`, and emit (id, score) pairs. -/
def specSearch (c : Corpus) (q : List String) : List (Nat × ℝ) :=
  ((List.insertionSort (scoreRel (simScores c q))
      ((List.range (simScores c q).length).filter
        (fun i => decide (relevanceFloor ≤ (simScores c q).getD i 0)))).take
    topK).map (fun i => (i, (simScores c q).getD i 0))

/-- Results served from the cached engine state, when one is present. -/
def searchState (st : Option EngineState) (q : List String) :
    Option (List (Nat × ℝ)) :=
  st.map (fun e => search e.corpus q)

end

/-! ### Helper lemmas -/

theorem sum_sq_nonneg (v : List ℝ) : 0 ≤ (v.map (fun x => x ^ 2)).sum := by
  apply List.sum_nonneg
  intro x hx
  obtain ⟨y, _, rfl⟩ := List.mem_map.mp hx
  positivity

theorem l2norm_nonneg (v : List ℝ) : 0 ≤ l2norm v := Real.sqrt_nonneg _

theorem sum_sq_eq_zero_iff (v : List ℝ) :
    (v.map (fun x => x ^ 2)).sum = 0 ↔ ∀ x ∈ v, x = 0 := by
  induction v with
  | nil => simp
  | cons a t ih =>
    simp only [List.map_cons, List.sum_cons, List.mem_cons]
    constructor
    · intro h
      have h1 : 0 ≤ a ^ 2 := sq_nonneg a
      have h2 : 0 ≤ (t.map (fun x => x ^ 2)).sum := sum_sq_nonneg t
      have ha : a ^ 2 = 0 := by linarith
      have ht : (t.map (fun x => x ^ 2)).sum = 0 := by linarith
      intro x hx
      rcases hx with rfl | hx
      · exact pow_eq_zero_iff two_ne_zero |>.mp ha
      · exact ih.mp ht x hx
    · intro h
      have ha : a = 0 := h a (Or.inl rfl)
      have ht : (t.map (fun x => x ^ 2)).sum = 0 :=
        ih.mpr (fun x hx => h x (Or.inr hx))
      simp [ha, ht]

theorem l2norm_eq_zero_iff (v : List ℝ) : l2norm v = 0 ↔ ∀ x ∈ v, x = 0 := by
  rw [l2norm, Real.sqrt_eq_zero (sum_sq_nonneg v), sum_sq_eq_zero_iff]

theorem sq_l2norm (v : List ℝ) : l2norm v ^ 2 = (v.map (fun x => x ^ 2)).sum :=
  Real.sq_sqrt (sum_sq_nonneg v)

theorem normalizeRow_of_all_zero (v : List ℝ) (h : ∀ x ∈ v, x = 0) :
    ∀ x ∈ normalizeRow v, x = 0 := by
  intro x hx
  obtain ⟨y, hy, rfl⟩ := List.mem_map.mp hx
  rw [h y hy, zero_div]

theorem sum_sq_normalizeRow (v : List ℝ) (h : l2norm v ≠ 0) :
    ((normalizeRow v).map (fun x => x ^ 2)).sum = 1 := by
  unfold normalizeRow
  rw [if_neg h, List.map_map]
  have hfun : ((fun x => x ^ 2) ∘ fun x => x / l2norm v) =
      fun x => x ^ 2 * (1 / l2norm v ^ 2) := by
    funext x
    field_simp
  rw [hfun]
  rw [show (fun x : ℝ => x ^ 2 * (1 / l2norm v ^ 2)) =
      (fun x : ℝ => (fun y : ℝ => y ^ 2) x * (1 / l2norm v ^ 2)) from rfl]
  rw [List.sum_map_mul_right, ← sq_l2norm]
  field_simp

theorem l2norm_normalizeRow (v : List ℝ) (h : l2norm v ≠ 0) :
    l2norm (normalizeRow v) = 1 := by
  rw [l2norm, sum_sq_normalizeRow v h, Real.sqrt_one]

theorem normalizeRow_of_norm_one (v : List ℝ) (h : l2norm v = 1) :
    normalizeRow v = v := by
  unfold normalizeRow
  rw [h]
  norm_num

theorem sum_sq_normalizeRow_le_one (v : List ℝ) :
    ((normalizeRow v).map (fun x => x ^ 2)).sum ≤ 1 := by
  by_cases h : l2norm v = 0
  · have hz : ∀ x ∈ normalizeRow v, x = 0 :=
      normalizeRow_of_all_zero v ((l2norm_eq_zero_iff v).mp h)
    have : ((normalizeRow v).map (fun x => x ^ 2)).sum = 0 :=
      (sum_sq_eq_zero_iff _).mpr hz
    linarith
  · rw [sum_sq_normalizeRow v h]

theorem dotL_self (v : List ℝ) : dotL v v = (v.map (fun x => x ^ 2)).sum := by
  induction v with
  | nil => rfl
  | cons a t ih =>
    simp only [dotL, List.zipWith_cons_cons, List.sum_cons, List.map_cons] at *
    rw [ih]
    ring

theorem dotL_le_half_sum_sq (u v : List ℝ) :
    dotL u v ≤ ((u.map (fun x => x ^ 2)).sum + (v.map (fun x => x ^ 2)).sum) / 2 := by
  induction u generalizing v with
  | nil =>
    have := sum_sq_nonneg v
    simp only [dotL, List.zipWith_nil_left, List.sum_nil, List.map_nil]
    linarith
  | cons a t ih =>
    cases v with
    | nil =>
      have := sum_sq_nonneg (a :: t)
      simp only [dotL, List.zipWith_nil_right, List.sum_nil, List.map_nil]
      linarith
    | cons b w =>
      have h1 := ih w
      simp only [dotL, List.zipWith_cons_cons, List.sum_cons, List.map_cons] at *
      nlinarith [sq_nonneg (a - b)]

theorem dotL_nonneg (u v : List ℝ) (hu : ∀ x ∈ u, 0 ≤ x) (hv : ∀ x ∈ v, 0 ≤ x) :
    0 ≤ dotL u v := by
  induction u generalizing v with
  | nil => simp [dotL]
  | cons a t ih =>
    cases v with
    | nil => simp [dotL]
    | cons b w =>
      simp only [dotL, List.zipWith_cons_cons, List.sum_cons]
      have ha := hu a (by simp)
      have hb := hv b (by simp)
      have ht := ih w (fun x hx => hu x (by simp [hx])) (fun x hx => hv x (by simp [hx]))
      have : 0 ≤ a * b := mul_nonneg ha hb
      unfold dotL at ht
      linarith

theorem dotL_zero_left (u v : List ℝ) (h : ∀ x ∈ u, x = 0) : dotL u v = 0 := by
  induction u generalizing v with
  | nil => rfl
  | cons a t ih =>
    cases v with
    | nil => rfl
    | cons b w =>
      simp only [dotL, List.zipWith_cons_cons, List.sum_cons]
      rw [h a (by simp), zero_mul, zero_add]
      exact ih w (fun x hx => h x (by simp [hx]))

theorem cosineSim_le_one (u v : List ℝ) : cosineSim u v ≤ 1 := by
  unfold cosineSim
  have h1 := sum_sq_normalizeRow_le_one u
  have h2 := sum_sq_normalizeRow_le_one v
  have h3 := dotL_le_half_sum_sq (normalizeRow u) (normalizeRow v)
  linarith

theorem normalizeRow_nonneg (v : List ℝ) (h : ∀ x ∈ v, 0 ≤ x) :
    ∀ x ∈ normalizeRow v, 0 ≤ x := by
  intro x hx
  obtain ⟨y, hy, rfl⟩ := List.mem_map.mp hx
  apply div_nonneg (h y hy)
  split
  · norm_num
  · exact l2norm_nonneg v

theorem one_le_idf (c : Corpus) (t : String) : 1 ≤ idf c t := by
  unfold idf
  have hd : (dfMat c t : ℝ) ≤ (c.length : ℝ) := by
    exact_mod_cast List.countP_le_length _
  have hpos : (0 : ℝ) < 1 + (dfMat c t : ℝ) := by positivity
  have hratio : (1 : ℝ) ≤ (1 + (c.length : ℝ)) / (1 + (dfMat c t : ℝ)) := by
    rw [one_le_div hpos]
    linarith
  have := Real.log_nonneg hratio
  linarith

theorem idf_pos (c : Corpus) (t : String) : 0 < idf c t :=
  lt_of_lt_of_le one_pos (one_le_idf c t)

theorem rawRow_nonneg (c : Corpus) (d : Doc) : ∀ x ∈ rawRow c d, 0 ≤ x := by
  intro x hx
  obtain ⟨t, _, rfl⟩ := List.mem_map.mp hx
  exact mul_nonneg (Nat.cast_nonneg _) (idf_pos c t).le

theorem cosineSim_nonneg (u v : List ℝ) (hu : ∀ x ∈ u, 0 ≤ x)
    (hv : ∀ x ∈ v, 0 ≤ x) : 0 ≤ cosineSim u v :=
  dotL_nonneg _ _ (normalizeRow_nonneg u hu) (normalizeRow_nonneg v hv)

/-! ### Claim theorems -/

/-- C1: for every query against an indexed corpus, the rendered result list
has at most `top_k = 10` entries and every rendered score is at least
`relevance_floor = 0.05` — the truncation `[:10]` bounds the length and the
`if score < 0.05: continue` filter bounds every surviving score. -/
theorem search_bounded_and_floored (c : Corpus) (q : List String) :
    (search c q).length ≤ topK ∧ ∀ p ∈ search c q, relevanceFloor ≤ p.2 := by
  constructor
  · calc (search c q).length
        ≤ ((sortedIndices c q).map
            (fun i => (i, (simScores c q).getD i 0))).length :=
          List.length_filter_le _ _
      _ = (sortedIndices c q).length := List.length_map _ _
      _ ≤ topK := by
          rw [sortedIndices, List.length_take]
          exact min_le_left _ _
  · intro p hp
    have h := List.of_mem_filter hp
    simp only [Bool.not_eq_true', decide_eq_false_iff_not, not_lt] at h
    exact h

/-- C3: the idf weight sklearn derives from the count matrix (counting rows
with a non-zero count, smoothed) is exactly the formula
`ln((1 + N) / (1 + df(t))) + 1` with `df` the number of documents containing
the term; it depends only on the corpus, never on the query. -/
theorem idf_eq_spec_formula (c : Corpus) (t : String) :
    idf c t = Real.log ((1 + (c.length : ℝ)) / (1 + (df c t : ℝ))) + 1 := by
  have hdf : dfMat c t = df c t := by
    unfold dfMat df
    apply List.countP_congr
    intro d _
    simp [tf, List.count_eq_zero]
  rw [idf, hdf]

/-- C4: every row of `tfidf_matrix` is the raw TF-IDF vector
divided by its Euclidean norm, and a row whose norm is zero (no vocabulary
term in the document) is left all-zero instead of failing. -/
theorem tfidf_rows_l2_normalized (c : Corpus) (d : Doc) (hd : d ∈ c) :
    docRow c d ∈ tfidfMatrix c ∧
      (l2norm (rawRow c d) ≠ 0 →
        docRow c d = (rawRow c d).map (fun x => x / l2norm (rawRow c d))) ∧
      (l2norm (rawRow c d) = 0 → ∀ x ∈ docRow c d, x = 0) := by
  refine ⟨List.mem_map_of_mem _ hd, ?_, ?_⟩
  · intro h
    unfold docRow normalizeRow
    rw [if_neg h]
  · intro h
    exact normalizeRow_of_all_zero _ ((l2norm_eq_zero_iff _).mp h)

/-- Witness for C4 at a concrete corpus: the empty second document shares no
vocabulary term, its raw row has zero norm, and its matrix row is all-zero. -/
theorem tfidf_rows_l2_normalized_witness :
    ([] : Doc) ∈ [["a"], ([] : Doc)] ∧
      l2norm (rawRow [["a"], []] []) = 0 ∧
      ∀ x ∈ docRow [["a"], []] [], x = 0 := by
  have hmem : ([] : Doc) ∈ [["a"], ([] : Doc)] := by simp
  have hvocab : vocab [["a"], []] = ["a"] := by decide
  have hraw : rawRow [["a"], []] [] = [0] := by
    rw [rawRow, hvocab]
    simp [tf]
  have hnorm : l2norm (rawRow [["a"], []] []) = 0 := by
    rw [hraw]
    simp [l2norm]
  exact ⟨hmem, hnorm,
    (tfidf_rows_l2_normalized [["a"], []] [] hmem).2.2 hnorm⟩

/-- C6: a query that is empty or shares no term with the vocabulary has an
all-zero query vector, so every similarity is `0 < 0.05` and the rendered
result list is empty; in the model `search` is total, so no error is
possible. -/
theorem oov_query_empty_result (c : Corpus) (q : List String)
    (h : q = [] ∨ ∀ t ∈ q, t ∉ vocab c) : search c q = [] := by
  have hq : ∀ t ∈ q, t ∉ vocab c := by
    rcases h with rfl | h
    · intro t ht
      simp at ht
    · exact h
  have hraw : ∀ x ∈ rawRow c q, x = 0 := by
    intro x hx
    obtain ⟨t, htv, rfl⟩ := List.mem_map.mp hx
    have htq : t ∉ q := fun htq => hq t htq htv
    rw [tf, List.count_eq_zero.mpr htq]
    simp
  have hscore : ∀ s ∈ simScores c q, s = 0 := by
    intro s hs
    obtain ⟨row, _, rfl⟩ := List.mem_map.mp hs
    unfold cosineSim queryVec
    exact dotL_zero_left _ _
      (normalizeRow_of_all_zero _ (normalizeRow_of_all_zero _ hraw))
  have hgetD : ∀ i, (simScores c q).getD i 0 = 0 := by
    intro i
    by_cases hi : i < (simScores c q).length
    · rw [List.getD_eq_getElem _ _ hi]
      exact hscore _ (List.getElem_mem hi)
    · rw [List.getD_eq_default _ _ (le_of_not_lt hi)]
  rw [search, List.filter_eq_nil_iff]
  intro p hp
  obtain ⟨i, _, rfl⟩ := List.mem_map.mp hp
  simp only [hgetD, Bool.not_eq_true', decide_eq_false_iff_not, not_not]
  rw [relevanceFloor]
  norm_num

/-- Witness for C6: the single-token query `["b"]` is outside the vocabulary
`["a"]` and returns no results. -/
theorem oov_query_empty_result_witness :
    (∀ t ∈ (["b"] : List String), t ∉ vocab [["a"]]) ∧
      search [["a"]] ["b"] = [] := by
  have h : ∀ t ∈ (["b"] : List String), t ∉ vocab [["a"]] := by decide
  exact ⟨h, oov_query_empty_result [["a"]] ["b"] (Or.inr h)⟩

/-- C10: every similarity a search can compute lies in `[0, 1]`: TF-IDF
weights are non-negative, both vectors are normalized inside
`cosine_similarity`, and the dot product of non-negative unit-or-zero
vectors is between `0` and `1`. -/
theorem scores_unit_interval (c : Corpus) (q : List String) :
    ∀ s ∈ simScores c q, 0 ≤ s ∧ s ≤ 1 := by
  intro s hs
  obtain ⟨row, hrow, rfl⟩ := List.mem_map.mp hs
  constructor
  · obtain ⟨d, _, rfl⟩ := List.mem_map.mp hrow
    apply cosineSim_nonneg
    · exact normalizeRow_nonneg _ (rawRow_nonneg c q)
    · exact normalizeRow_nonneg _ (rawRow_nonneg c d)
  · exact cosineSim_le_one _ _

/-- Concrete similarity evaluation used by witnesses: in the one-document
corpus `[["a"]]` the query `["a"]` scores exactly `1` against the document. -/
theorem simScores_single_eval : simScores [["a"]] ["a"] = [1] := by
  have hvocab : vocab [["a"]] = ["a"] := by decide
  have hidf : idf [["a"]] "a" = 1 := by
    unfold idf
    have hdf : dfMat [["a"]] "a" = 1 := by decide
    rw [hdf]
    norm_num [Real.log_one]
  have hraw : rawRow [["a"]] ["a"] = [1] := by
    rw [rawRow, hvocab]
    simp [tf, hidf]
  have hnorm1 : normalizeRow [(1 : ℝ)] = [1] := by
    have hl : l2norm [(1 : ℝ)] = 1 := by
      simp [l2norm]
    simp [normalizeRow, hl]
  unfold simScores tfidfMatrix docRow queryVec cosineSim
  simp [hraw, hnorm1, dotL]

/-- Witness for C10: the score `1` produced by the query `["a"]` on the
corpus `[["a"]]` is inside `[0, 1]`. -/
theorem scores_unit_interval_witness :
    (1 : ℝ) ∈ simScores [["a"]] ["a"] ∧ (0 ≤ (1 : ℝ) ∧ (1 : ℝ) ≤ 1) := by
  have hmem : (1 : ℝ) ∈ simScores [["a"]] ["a"] := by
    rw [simScores_single_eval]
    simp
  exact ⟨hmem, scores_unit_interval [["a"]] ["a"] 1 hmem⟩

theorem rawRow_norm_pos (c : Corpus) (d : Doc)
    (h : ∃ t ∈ d, t ∈ vocab c) : 0 < l2norm (rawRow c d) := by
  obtain ⟨t, htd, htv⟩ := h
  have hentry : ((tf d t : ℝ) * idf c t) ∈ rawRow c d :=
    List.mem_map_of_mem _ htv
  have htf : (1 : ℝ) ≤ (tf d t : ℝ) := by
    have := List.count_pos_iff.mpr htd
    exact_mod_cast this
  have hpos : 0 < (tf d t : ℝ) * idf c t :=
    mul_pos (lt_of_lt_of_le one_pos htf) (idf_pos c t)
  have hsq : ((tf d t : ℝ) * idf c t) ^ 2 ≤ ((rawRow c d).map (fun x => x ^ 2)).sum :=
    List.single_le_sum
      (by
        intro x hx
        obtain ⟨y, _, rfl⟩ := List.mem_map.mp hx
        positivity)
      _ (List.mem_map_of_mem _ hentry)
  rw [l2norm]
  apply Real.sqrt_pos.mpr
  nlinarith

/-- C5: issuing the full token list of an indexed document as the query makes the
query vector coincide with the normalized row of that document, so its similarity
is exactly `1`, and `1` bounds every similarity, making it the maximum over
all documents. -/
theorem self_query_top_score (c : Corpus) (i : Nat) (hi : i < c.length)
    (hov : ∃ t ∈ c.getD i [], t ∈ vocab c) :
    (simScores c (c.getD i [])).getD i 0 = 1 ∧
      ∀ s ∈ simScores c (c.getD i []), s ≤ 1 := by
  set d := c.getD i [] with hd
  have hlen : i < (simScores c d).length := by
    simpa [simScores, tfidfMatrix] using hi
  have hget : (simScores c d).getD i 0 = cosineSim (queryVec c d) (docRow c d) := by
    rw [List.getD_eq_getElem _ _ hlen]
    simp only [simScores, tfidfMatrix, List.map_map, List.getElem_map]
    rw [← List.getD_eq_getElem c [] hi]
    rfl
  constructor
  · rw [hget]
    have hnz : l2norm (rawRow c d) ≠ 0 := (rawRow_norm_pos c d hov).ne.symm
    have hone : l2norm (docRow c d) = 1 := l2norm_normalizeRow _ hnz
    unfold cosineSim queryVec
    rw [show normalizeRow (rawRow c d) = docRow c d from rfl,
      normalizeRow_of_norm_one _ hone, dotL_self, ← sq_l2norm, hone]
    norm_num
  · intro s hs
    exact (scores_unit_interval c d s hs).2

/-- Witness for C5: in the corpus `[["a"]]`, querying the tokens of document 0
scores `1` for document 0, the maximum over all scores. -/
theorem self_query_top_score_witness :
    (0 < ([["a"]] : Corpus).length ∧
        ∃ t ∈ ([["a"]] : Corpus).getD 0 [], t ∈ vocab [["a"]]) ∧
      (simScores [["a"]] (([["a"]] : Corpus).getD 0 [])).getD 0 0 = 1 ∧
      ∀ s ∈ simScores [["a"]] (([["a"]] : Corpus).getD 0 []), s ≤ 1 := by
  refine ⟨⟨by decide, ⟨"a", by decide⟩⟩, ?_⟩
  exact self_query_top_score [["a"]] 0 (by decide) ⟨"a", by decide⟩

/-- C8: fitting an empty corpus (or one whose vocabulary comes out empty)
fails with the empty-corpus error, and a failing load leaves the cached
engine state — and therefore the results a subsequent search serves —
unchanged. -/
theorem load_error_retention :
    loadEngine ([] : Corpus) = Except.error LoadError.emptyCorpus ∧
      (∀ c : Corpus, vocab c = [] → loadEngine c = Except.error LoadError.emptyCorpus) ∧
      ∀ (prev : Option EngineState) (c : Corpus) (e : LoadError) (q : List String),
        loadEngine c = Except.error e →
          loadAttempt prev c = prev ∧
            searchState (loadAttempt prev c) q = searchState prev q := by
  refine ⟨rfl, ?_, ?_⟩
  · intro c hc
    rw [loadEngine, if_pos (by rw [hc]; rfl)]
  · intro prev c e q h
    have : loadAttempt prev c = prev := by
      unfold loadAttempt
      rw [h]
    exact ⟨this, by rw [this]⟩

/-- Witness for C8: loading the empty corpus over a previously indexed
one-document state errors and keeps the old state queryable. -/
theorem load_error_retention_witness :
    loadEngine ([] : Corpus) = Except.error LoadError.emptyCorpus ∧
      loadAttempt (some ⟨[["a"]]⟩) [] = some ⟨[["a"]]⟩ ∧
      searchState (loadAttempt (some ⟨[["a"]]⟩) []) ["a"] =
        searchState (some ⟨[["a"]]⟩) ["a"] := by
  refine ⟨load_error_retention.1, ?_, ?_⟩
  · exact (load_error_retention.2.2 (some ⟨[["a"]]⟩) [] LoadError.emptyCorpus ["a"]
      load_error_retention.1).1
  · exact (load_error_retention.2.2 (some ⟨[["a"]]⟩) [] LoadError.emptyCorpus ["a"]
      load_error_retention.1).2

/-- C2 (amended): the result list is sorted non-increasing by score; the
code gives no guarantee on the relative order of equal-score results (the
default argsort is not stable), and the claimed ascending document-id tie
order fails.  The proof uses only the score component of the sort order, so
the conclusion holds under every resolution of equal-score ties. -/
theorem search_sorted_nonincreasing (c : Corpus) (q : List String) :
    (search c q).Pairwise (fun p r => r.2 ≤ p.2) := by
  set s := simScores c q with hs
  have hsorted : (argsortDesc s).Pairwise (scoreRel s) :=
    List.sorted_insertionSort _ _
  have htake : (sortedIndices c q).Pairwise (scoreRel s) :=
    List.Pairwise.sublist (List.take_sublist _ _) hsorted
  have hidx : (sortedIndices c q).Pairwise
      (fun i j => s.getD j 0 ≤ s.getD i 0) := by
    apply htake.imp
    intro i j hrel
    rcases hrel with hlt | ⟨heq, _⟩
    · exact hlt.le
    · exact heq.ge
  apply List.Pairwise.filter
  rw [List.pairwise_map]
  exact hidx

/-- Concrete similarity evaluation: two identical documents `["a"]` both
score `1` on the query `["a"]`. -/
theorem simScores_pair_eval : simScores [["a"], ["a"]] ["a"] = [1, 1] := by
  have hvocab : vocab [["a"], ["a"]] = ["a"] := by decide
  have hidf : idf [["a"], ["a"]] "a" = 1 := by
    unfold idf
    have hdf : dfMat [["a"], ["a"]] "a" = 2 := by decide
    rw [hdf]
    norm_num [Real.log_one]
  have hraw : rawRow [["a"], ["a"]] ["a"] = [1] := by
    rw [rawRow, hvocab]
    simp [tf, hidf]
  have hnorm1 : normalizeRow [(1 : ℝ)] = [1] := by
    have hl : l2norm [(1 : ℝ)] = 1 := by
      simp [l2norm]
    simp [normalizeRow, hl]
  unfold simScores tfidfMatrix docRow queryVec cosineSim
  simp [hraw, hnorm1, dotL]

/-- Concrete ranking evaluation: on the tied score vector `[1, 1]` the
reversed argsort lists position `1` before position `0`. -/
theorem argsortDesc_pair_eval : argsortDesc [(1 : ℝ), 1] = [1, 0] := by
  have hrange : List.range ([(1 : ℝ), 1]).length = [0, 1] := by decide
  have hrel : ¬ scoreRel [(1 : ℝ), 1] 0 1 := by
    unfold scoreRel
    norm_num
  rw [argsortDesc, hrange]
  simp [List.insertionSort, List.orderedInsert, hrel]

/-- Concrete search evaluation: the full pipeline on the two-document tied
corpus returns document `1` before document `0`, both with score `1`. -/
theorem search_pair_eval :
    search [["a"], ["a"]] ["a"] = [(1, (1 : ℝ)), (0, 1)] := by
  have hfloor : ¬ ((1 : ℝ) < relevanceFloor) := by
    rw [relevanceFloor]
    norm_num
  rw [search, sortedIndices, simScores_pair_eval, argsortDesc_pair_eval]
  simp [topK, hfloor]

/-- C2 (counterexample): on the corpus `[["a"], ["a"]]` and query `["a"]`
both documents score `1`, yet document `1` is listed before document `0`, so
the claimed ascending document-id order on ties fails. -/
theorem search_equal_score_ascending_cx :
    ¬ (search [["a"], ["a"]] ["a"]).Pairwise
        (fun p r => r.2 ≤ p.2 ∧ (p.2 = r.2 → p.1 < r.1)) := by
  rw [search_pair_eval]
  intro h
  have h1 := (List.pairwise_cons.mp h).1 (0, 1) (by simp)
  have h2 := h1.2 rfl
  exact absurd h2 (by norm_num)

theorem filter_eq_takeWhile_of_pairwise {α : Type} {p : α → Bool} {l : List α}
    (h : l.Pairwise (fun a b => p b = true → p a = true)) :
    l.filter p = l.takeWhile p := by
  induction l with
  | nil => rfl
  | cons a t ih =>
    rcases List.pairwise_cons.mp h with ⟨ha, ht⟩
    by_cases hpa : p a = true
    · rw [List.filter_cons_of_pos hpa, List.takeWhile_cons, if_pos hpa, ih ht]
    · rw [List.filter_cons_of_neg hpa, List.takeWhile_cons, if_neg hpa]
      exact List.filter_eq_nil_iff.mpr (fun b hb hpb => hpa (ha b hb hpb))

theorem takeWhile_take_comm {α : Type} (p : α → Bool) (l : List α) (k : Nat) :
    (l.take k).takeWhile p = (l.takeWhile p).take k := by
  induction l generalizing k with
  | nil => simp
  | cons a t ih =>
    cases k with
    | zero => simp
    | succ k =>
      by_cases hpa : p a = true
      · rw [List.take_succ_cons, List.takeWhile_cons, if_pos hpa,
          List.takeWhile_cons, if_pos hpa, List.take_succ_cons, ih]
      · rw [List.take_succ_cons, List.takeWhile_cons, if_neg hpa,
          List.takeWhile_cons, if_neg hpa]
        simp

/-- C9: filtering below-floor documents, then sorting survivors, then
truncating to `top_k` (the step order of the spec) yields exactly the list the
code computes by sorting everything, truncating to `top_k`, and then
filtering — because every below-floor entry sits in a suffix of the
descending sort. -/
theorem ranker_order_of_operations_equiv (c : Corpus) (q : List String) :
    specSearch c q = search c q := by
  set s := simScores c q with hs
  set pb : Nat → Bool := fun i => decide (relevanceFloor ≤ s.getD i 0) with hpb
  set L : List Nat := List.insertionSort (scoreRel s) (List.range s.length)
    with hL
  have hsortfilter :
      List.insertionSort (scoreRel s) ((List.range s.length).filter pb) =
        L.filter pb := by
    apply List.eq_of_perm_of_sorted (r := scoreRel s)
    · exact (List.perm_insertionSort _ _).trans
        (((List.perm_insertionSort (scoreRel s) (List.range s.length)).filter
          pb).symm)
    · exact List.sorted_insertionSort _ _
    · exact List.Pairwise.filter _ (List.sorted_insertionSort _ _)
  have hpair : L.Pairwise (fun i j => pb j = true → pb i = true) := by
    apply (List.sorted_insertionSort (scoreRel s) (List.range s.length)).imp
    intro i j hrel hj
    simp only [hpb, decide_eq_true_eq] at hj ⊢
    rcases hrel with hlt | ⟨heq, _⟩
    · exact hj.trans hlt.le
    · exact hj.trans heq.ge
  have hswap : (L.filter pb).take topK = (L.take topK).filter pb := by
    rw [filter_eq_takeWhile_of_pairwise hpair,
      filter_eq_takeWhile_of_pairwise
        (List.Pairwise.sublist (List.take_sublist _ _) hpair),
      ← takeWhile_take_comm]
  have hpred : (fun p : Nat × ℝ => !decide (p.2 < relevanceFloor)) ∘
      (fun i => (i, s.getD i 0)) = pb := by
    funext i
    show (!decide (s.getD i 0 < relevanceFloor)) =
      decide (relevanceFloor ≤ s.getD i 0)
    rw [← decide_not]
    exact decide_eq_decide.mpr not_lt
  rw [specSearch, search, sortedIndices, argsortDesc]
  rw [← hs, ← hL, hsortfilter, hswap, List.filter_map, hpred]

theorem sorted_getD_mono (l : List String) (hs : l.Sorted (· ≤ ·))
    {i j : Nat} (hij : i ≤ j) (hj : j < l.length) :
    l.getD i "" ≤ l.getD j "" := by
  rcases eq_or_lt_of_le hij with rfl | hlt
  · exact le_refl _
  · have hi : i < l.length := lt_trans hlt hj
    rw [List.getD_eq_getElem _ _ hi, List.getD_eq_getElem _ _ hj]
    exact List.pairwise_iff_getElem.mp hs i j hi hj hlt

theorem sortedTerms_sorted (c : Corpus) : (sortedTerms c).Sorted (· ≤ ·) :=
  List.sorted_insertionSort _ _

theorem sortedTerms_nodup (c : Corpus) : (sortedTerms c).Nodup :=
  (List.perm_insertionSort _ _).symm.nodup (List.nodup_dedup _)

/-- C7 (counterexample): in the one-document corpus `[["b", "b", "a"]]` the
term `"b"` is most frequent, so the claimed selection-order indexing puts
`"b"` at column 0; the code assigns columns alphabetically and puts `"a"`
at column 0. -/
theorem vocab_selection_order_cx :
    vocab [["b", "b", "a"]] ≠ specVocab [["b", "b", "a"]] := by
  rw [vocab_bba_eval, specVocab_bba_eval]
  decide

/-- C7 (amended): the vocabulary keeps exactly `min(max_features, number of
distinct terms)` terms, all drawn from the corpus, every kept term has total
corpus frequency at least that of every dropped term (which tied terms
survive the cut the code leaves unspecified), and column indices are
assigned in ascending lexicographic order of the kept terms, not in
selection order.  Each conjunct holds for every resolution of frequency
ties in the limiting argsort. -/
theorem vocab_bounded_sorted_freq_dominant (c : Corpus) :
    (vocab c).length = min maxFeatures (sortedTerms c).length ∧
      (vocab c).Sorted (· ≤ ·) ∧
      (∀ t ∈ vocab c, t ∈ sortedTerms c) ∧
      ∀ t ∈ vocab c, ∀ u ∈ sortedTerms c, u ∉ vocab c →
        totalCount c u ≤ totalCount c t := by
  by_cases hlen : (sortedTerms c).length ≤ maxFeatures
  · have hv : vocab c = sortedTerms c := by rw [vocab, if_pos hlen]
    refine ⟨?_, hv ▸ sortedTerms_sorted c, ?_, ?_⟩
    · rw [hv, Nat.min_eq_right hlen]
    · intro t ht
      rw [hv] at ht
      exact ht
    · intro t _ u hu hnu
      rw [hv] at hnu
      exact absurd hu hnu
  · have hv : vocab c = ((List.range (sortedTerms c).length).filter
        (fun i => decide (i ∈ keptIdx c))).map
          (fun i => (sortedTerms c).getD i "") := by
      rw [vocab, if_neg hlen]
    have hkept_lt : ∀ i ∈ keptIdx c, i < (sortedTerms c).length := by
      intro i hi
      have h1 : i ∈ List.insertionSort (freqIdxRel c (sortedTerms c))
          (List.range (sortedTerms c).length) :=
        List.take_subset _ _ hi
      exact List.mem_range.mp ((List.perm_insertionSort _ _).mem_iff.mp h1)
    have hkept_nodup : (keptIdx c).Nodup :=
      List.Nodup.sublist (List.take_sublist _ _)
        ((List.perm_insertionSort _ _).symm.nodup (List.nodup_range _))
    have hperm_filter : List.Perm
        ((List.range (sortedTerms c).length).filter
          (fun i => decide (i ∈ keptIdx c))) (keptIdx c) := by
      rw [List.perm_ext_iff_of_nodup
        (List.Nodup.filter _ (List.nodup_range _)) hkept_nodup]
      intro a
      rw [List.mem_filter]
      constructor
      · intro ⟨_, ha⟩
        simpa using ha
      · intro ha
        exact ⟨List.mem_range.mpr (hkept_lt a ha), by simpa using ha⟩
    have hlen_v : (vocab c).length = min maxFeatures (sortedTerms c).length := by
      rw [hv, List.length_map, hperm_filter.length_eq, keptIdx,
        List.length_take, List.length_insertionSort, List.length_range]
    have hsorted_v : (vocab c).Sorted (· ≤ ·) := by
      rw [hv]
      show List.Pairwise _ _
      rw [List.pairwise_map]
      apply List.Pairwise.imp_of_mem ?_
        (List.Pairwise.filter _ (List.pairwise_lt_range _))
      intro i j _ hj hij
      have hjn : j < (sortedTerms c).length :=
        List.mem_range.mp (List.mem_of_mem_filter hj)
      exact sorted_getD_mono _ (sortedTerms_sorted c) hij.le hjn
    have hmem_ts : ∀ t ∈ vocab c, t ∈ sortedTerms c := by
      intro t ht
      rw [hv] at ht
      obtain ⟨i, hifil, rfl⟩ := List.mem_map.mp ht
      have hin : i < (sortedTerms c).length :=
        List.mem_range.mp (List.mem_of_mem_filter hifil)
      rw [List.getD_eq_getElem _ _ hin]
      exact List.getElem_mem hin
    refine ⟨hlen_v, hsorted_v, hmem_ts, ?_⟩
    intro t ht u hu hnu
    rw [hv] at ht hnu
    obtain ⟨i, hifil, rfl⟩ := List.mem_map.mp ht
    have hik : i ∈ keptIdx c := by
      simpa using (List.mem_filter.mp hifil).2
    obtain ⟨j, hjn, hju⟩ := List.getElem_of_mem hu
    have hjk : j ∉ keptIdx c := by
      intro hjk
      apply hnu
      have hjf : j ∈ (List.range (sortedTerms c).length).filter
          (fun i => decide (i ∈ keptIdx c)) := by
        rw [List.mem_filter]
        exact ⟨List.mem_range.mpr hjn, by simpa using hjk⟩
      have hmm : (sortedTerms c).getD j "" ∈
          ((List.range (sortedTerms c).length).filter
            (fun i => decide (i ∈ keptIdx c))).map
              (fun i => (sortedTerms c).getD i "") :=
        List.mem_map_of_mem _ hjf
      rwa [List.getD_eq_getElem _ _ hjn, hju] at hmm
    have hsplit : List.insertionSort (freqIdxRel c (sortedTerms c))
        (List.range (sortedTerms c).length) =
        (List.insertionSort (freqIdxRel c (sortedTerms c))
          (List.range (sortedTerms c).length)).take maxFeatures ++
        (List.insertionSort (freqIdxRel c (sortedTerms c))
          (List.range (sortedTerms c).length)).drop maxFeatures :=
      (List.take_append_drop maxFeatures _).symm
    have hmemL : j ∈ List.insertionSort (freqIdxRel c (sortedTerms c))
        (List.range (sortedTerms c).length) :=
      (List.perm_insertionSort _ _).mem_iff.mpr (List.mem_range.mpr hjn)
    have hjd : j ∈ (List.insertionSort (freqIdxRel c (sortedTerms c))
        (List.range (sortedTerms c).length)).drop maxFeatures := by
      rw [hsplit] at hmemL
      rcases List.mem_append.mp hmemL with h | h
      · exact absurd h hjk
      · exact h
    have hs : List.Pairwise (freqIdxRel c (sortedTerms c))
        (List.insertionSort (freqIdxRel c (sortedTerms c))
          (List.range (sortedTerms c).length)) :=
      List.sorted_insertionSort _ _
    have hs2 : List.Pairwise (freqIdxRel c (sortedTerms c))
        ((List.insertionSort (freqIdxRel c (sortedTerms c))
          (List.range (sortedTerms c).length)).take maxFeatures ++
        (List.insertionSort (freqIdxRel c (sortedTerms c))
          (List.range (sortedTerms c).length)).drop maxFeatures) := by
      rw [← hsplit]
      exact hs
    have hrel := (List.pairwise_append.mp hs2).2.2 i hik j hjd
    rcases hrel with hlt | ⟨heq, _⟩
    · rw [← hju, ← List.getD_eq_getElem _ "" hjn]
      exact hlt.le
    · rw [← hju, ← List.getD_eq_getElem _ "" hjn]
      exact heq.ge

/-- Witness for C7 (amended) at a concrete corpus: the kept term `"a"` is a
corpus term and the vocabulary size is the minimum of the cap and the number
of distinct terms. -/
theorem vocab_bounded_sorted_freq_dominant_witness :
    ("a" : String) ∈ vocab [["b", "b", "a"]] ∧
      (vocab [["b", "b", "a"]]).length =
        min maxFeatures (sortedTerms [["b", "b", "a"]]).length ∧
      ("a" : String) ∈ sortedTerms [["b", "b", "a"]] := by
  have hmem : ("a" : String) ∈ vocab [["b", "b", "a"]] := by
    rw [vocab_bba_eval]
    simp
  exact ⟨hmem, (vocab_bounded_sorted_freq_dominant [["b", "b", "a"]]).1,
    (vocab_bounded_sorted_freq_dominant [["b", "b", "a"]]).2.2.1 "a" hmem⟩

/-- Witness for C1: on the two-document corpus with query `["a"]` the result
list has at most `top_k` entries and the listed score `1` is at least the
relevance floor. -/
theorem search_bounded_and_floored_witness :
    ((1 : Nat), (1 : ℝ)) ∈ search [["a"], ["a"]] ["a"] ∧
      (search [["a"], ["a"]] ["a"]).length ≤ topK ∧
      relevanceFloor ≤ (1 : ℝ) := by
  have hmem : ((1 : Nat), (1 : ℝ)) ∈ search [["a"], ["a"]] ["a"] := by
    rw [search_pair_eval]
    simp
  exact ⟨hmem, (search_bounded_and_floored [["a"], ["a"]] ["a"]).1,
    (search_bounded_and_floored [["a"], ["a"]] ["a"]).2 (1, 1) hmem⟩

end NjuptSearch
